import Mathlib

/-!
Shallow embedding of `src/biotite/structure/charges.py`: the PEOE
(partial equalization of orbital electronegativity, Gasteiger–Marsili)
partial-charge computation `partial_charges` and its parameter lookup
`_get_parameters`.

Modelling conventions:
* IEEE floats are modelled as `Option ℚ`: `some q` is a finite value and
  `none` plays the role of NaN, the only non-finite value this algorithm
  produces or branches on (all divisors are nonzero table constants, so
  no infinities arise).  Arithmetic on `Option ℚ` propagates `none`
  exactly as float arithmetic propagates NaN, and ordered comparisons
  with `none` are `false`, as float comparisons with NaN are.
* NumPy arrays are `List`s indexed with `List.getD` / `List.set`.
* The `BondList` of the input `AtomArray` is a list of `(i, j, bond_type)`
  rows in the order `BondList.as_array` enumerates them; a `BondList`
  stores every undirected bond exactly once.
* Python exceptions at the API boundary are modelled with `Except`;
  `warnings.warn` calls are modelled by returning a list of warnings.
-/

namespace Peoe

/-- NaN-propagating addition on `Option ℚ` (float `+`). -/
def oadd : Option ℚ → Option ℚ → Option ℚ
  | some a, some b => some (a + b)
  | _, _ => none

/-- NaN-propagating subtraction on `Option ℚ` (float `-`). -/
def osub : Option ℚ → Option ℚ → Option ℚ
  | some a, some b => some (a - b)
  | _, _ => none

/-- NaN-propagating multiplication on `Option ℚ` (float `*`). -/
def omul : Option ℚ → Option ℚ → Option ℚ
  | some a, some b => some (a * b)
  | _, _ => none

/-- NaN-propagating division on `Option ℚ` (float `/`; in this program
every divisor is a nonzero constant from the parameter table, so the
zero-divisor case never arises). -/
def odiv : Option ℚ → Option ℚ → Option ℚ
  | some a, some b => some (a / b)
  | _, _ => none

/-- Float `<` comparison: any comparison with NaN is `false`. -/
def olt : Option ℚ → Option ℚ → Bool
  | some a, some b => decide (a < b)
  | _, _ => false

/-- The nested dictionary `EN_PARAMETERS` of `charges.py` (lines 25–70):
the first level keys on the element symbol, the second level on the
number of binding partners, giving the Gasteiger–Marsili `(a, b, c)`
parameters; a missing key at either level is `none` (the `KeyError`
case of `_get_parameters`). -/
def EN_PARAMETERS (element : String) (binding_partners : ℕ) : Option (ℚ × ℚ × ℚ) :=
  if element = "H" then
    if binding_partners = 1 then some (7.17, 6.24, -0.56) else none
  else if element = "C" then
    if binding_partners = 4 then some (7.98, 9.18, 1.88)
    else if binding_partners = 3 then some (8.79, 9.18, 1.88)
    else if binding_partners = 2 then some (10.39, 9.45, 0.73) else none
  else if element = "N" then
    if binding_partners = 4 then some (11.54, 10.82, 1.36)
    else if binding_partners = 3 then some (11.54, 10.82, 1.36)
    else if binding_partners = 2 then some (12.87, 11.15, 0.85)
    else if binding_partners = 1 then some (15.68, 11.7, -0.27) else none
  else if element = "O" then
    if binding_partners = 2 then some (14.18, 12.92, 1.39)
    else if binding_partners = 1 then some (17.07, 13.79, 0.47) else none
  else if element = "S" then
    if binding_partners = 2 then some (10.14, 9.13, 1.38) else none
  else if element = "F" then
    if binding_partners = 1 then some (14.66, 13.85, 2.31) else none
  else if element = "Cl" then
    if binding_partners = 1 then some (11.00, 9.69, 1.35) else none
  else if element = "Br" then
    if binding_partners = 1 then some (10.08, 8.47, 1.16) else none
  else if element = "I" then
    if binding_partners = 1 then some (9.90, 7.96, 0.96) else none
  else none

/-- The constant `EN_POS_HYDROGEN` of `charges.py` (line 75). -/
def EN_POS_HYDROGEN : ℚ := 20.02

/-- The warnings `partial_charges` can emit through `warnings.warn`:
the missing-formal-charge warning (lines 234–240) and the
missing-parameters warning of `_get_parameters` (lines 130–136), which
carries the `np.unique` list of unparametrized element symbols. -/
inductive PCWarning where
  | chargesDefaulted : PCWarning
  | unparametrizedElements (elems : List String) : PCWarning
deriving DecidableEq

/-- Model of `np.unique` on a list of strings: the distinct values in sorted
order (line 128 of `charges.py`). -/
def npUnique (l : List String) : List String :=
  List.mergeSort l.dedup (fun a b => decide (a ≤ b))

/-- Model of `_get_parameters` (lines 110–137): per-atom `(a, b, c)` parameters,
`none` standing for the NaN row written on `KeyError`, together with the
at-most-one warning listing the unique unparametrized elements.
`elements` and `amount_of_binding_partners` have equal length at the
call site. -/
def get_parameters (elements : List String) (amount_of_binding_partners : List ℕ) :
    List (Option (ℚ × ℚ × ℚ)) × List PCWarning :=
  let pairs := List.zip elements amount_of_binding_partners
  let parameters := pairs.map (fun p => EN_PARAMETERS p.1 p.2)
  let unparametrized := pairs.filterMap
    (fun p => if EN_PARAMETERS p.1 p.2 = none then some p.1 else none)
  (parameters,
   if unparametrized = [] then []
   else [PCWarning.unparametrizedElements (npUnique unparametrized)])

/-- One row of `en_values` (line 268): `a + b*q + c*q**2` from the
current charge; NaN if the parameters or the charge are NaN. -/
def enValue : Option (ℚ × ℚ × ℚ) → Option ℚ → Option ℚ
  | some (a, b, c), some q => some (a + b * q + c * q ^ 2)
  | _, _ => none

/-- One row of `pos_en_values` (lines 271–275): the parameter sum
`a + b + c`, with the literal hydrogen value `12.85` replaced by
`20.02`; NaN parameters give NaN (`NaN == 12.85` is false). -/
def posEnValue : Option (ℚ × ℚ × ℚ) → Option ℚ
  | some (a, b, c) => if a + b + c = 12.85 then some 20.02 else some (a + b + c)
  | none => none

/-- The body of the bond loop (lines 276–304) for one bond row
`(i, j, bond_type)`: the four cases of the nested `np.isnan` tests on
`en_values[[i, j]]`, and otherwise the damped charge transfer using the
positive-ion electronegativity of the atom with smaller `EN` as
divisor.  `charges` is the buffer as mutated by the earlier bonds of
the same iteration; `en_values` and `pos_en_values` are fixed for the
whole iteration. -/
def processBond (damping : ℚ) (en_values pos_en_values : List (Option ℚ))
    (charges : List (Option ℚ)) (bond : ℕ × ℕ × ℕ) : List (Option ℚ) :=
  let i := bond.1
  let j := bond.2.1
  match en_values.getD i none, en_values.getD j none with
  | none, none => (charges.set i none).set j none
  | none, some _ => charges.set i none
  | some _, none => charges.set j none
  | some eni, some enj =>
    let divisor := if olt (some eni) (some enj) then pos_en_values.getD i none
                   else pos_en_values.getD j none
    let charge_transfer := omul (odiv (osub (some enj) (some eni)) divisor) (some damping)
    let charges1 := charges.set i (oadd (charges.getD i none) charge_transfer)
    charges1.set j (osub (charges1.getD j none) charge_transfer)

/-- One iteration step (lines 255–304): recompute `en_values` and
`pos_en_values` from the current charge buffer, then process every bond
in the `BondList.as_array` order. -/
def iterationStep (parameters : List (Option (ℚ × ℚ × ℚ))) (bondArr : List (ℕ × ℕ × ℕ))
    (damping : ℚ) (charges : List (Option ℚ)) : List (Option ℚ) :=
  let en_values := List.zipWith enValue parameters charges
  let pos_en_values := parameters.map posEnValue
  bondArr.foldl (processBond damping en_values pos_en_values) charges

/-- The iteration loop (lines 251–304): `damping` is the running damping
factor, halved at the start of every step (`damping *= 0.5`). -/
def peoeIters (parameters : List (Option (ℚ × ℚ × ℚ))) (bondArr : List (ℕ × ℕ × ℕ)) :
    ℕ → ℚ → List (Option ℚ) → List (Option ℚ)
  | 0, _, charges => charges
  | n + 1, damping, charges =>
    peoeIters parameters bondArr n (damping * 0.5)
      (iterationStep parameters bondArr (damping * 0.5) charges)

/-- The iteration loop with the damping factor in closed form: after
`k` completed halvings, step number `k + 1` uses the damping factor
`2⁻¹ ^ (k + 1)`, i.e. iteration `k` of a run started at `k = 0` uses
`2 ^ (-k)`. -/
def peoeItersAt (parameters : List (Option (ℚ × ℚ × ℚ))) (bondArr : List (ℕ × ℕ × ℕ)) :
    ℕ → ℕ → List (Option ℚ) → List (Option ℚ)
  | _, 0, charges => charges
  | k, n + 1, charges =>
    peoeItersAt parameters bondArr (k + 1) n
      (iterationStep parameters bondArr ((2 : ℚ)⁻¹ ^ (k + 1)) charges)

/-- Model of `atom_array.bonds.get_bonds(i)[0]`: the atoms bonded to atom `i`,
read off the bond rows (a `BondList` stores each undirected bond once). -/
def bondedAtoms (bondArr : List (ℕ × ℕ × ℕ)) (i : ℕ) : List ℕ :=
  bondArr.filterMap (fun b =>
    if b.1 = i then some b.2.1 else if b.2.1 = i then some b.1 else none)

/-- The slice of a biotite `AtomArray` that `partial_charges` reads:
the per-atom element symbols, the optional associated `BondList`
(`atom_array.bonds`, `None` when absent), and the optional `charges`
annotation (absence raises `AttributeError` at line 231). -/
structure AtomArrayModel where
  element : List String
  bonds : Option (List (ℕ × ℕ × ℕ))
  charges : Option (List ℚ)

/-- Model of `amount_of_binding_partners` (lines 222, 243–249): the number of
bonded neighbors of every atom, in atom order. -/
def amountOfBindingPartners (atom_array : AtomArrayModel)
    (bondArr : List (ℕ × ℕ × ℕ)) : List ℕ :=
  (List.range atom_array.element.length).map (fun i => (bondedAtoms bondArr i).length)

/-- Resolution of the initial charge buffer (lines 229–240): the
explicit `charges` argument if given, else the `charges` annotation,
else all zeros plus the missing-formal-charge warning. -/
def resolveInitialCharges (atom_array : AtomArrayModel) (charges : Option (List ℚ)) :
    List ℚ × List PCWarning :=
  match charges with
  | some cs => (cs, [])
  | none =>
    match atom_array.charges with
    | some cs => (cs, [])
    | none => (List.replicate atom_array.element.length 0, [PCWarning.chargesDefaulted])

/-- Model of `partial_charges` (lines 140–306).  Returns `Except.error` when the
`AtomArray` has no associated `BondList` (the `AttributeError` of lines
224–228), and otherwise the final charge buffer after
`iteration_step_num` damped iterations together with the warnings
emitted, in emission order. -/
def partial_charges (atom_array : AtomArrayModel) (iteration_step_num : ℕ)
    (charges : Option (List ℚ)) :
    Except String (List (Option ℚ) × List PCWarning) :=
  match atom_array.bonds with
  | none => Except.error "The input AtomArray doesn't possess an associated BondList."
  | some bondArr =>
    let resolved := resolveInitialCharges atom_array charges
    let ps := get_parameters atom_array.element
      (amountOfBindingPartners atom_array bondArr)
    Except.ok
      (peoeIters ps.1 bondArr iteration_step_num 1 (resolved.1.map some),
       resolved.2 ++ ps.2)

/-- The charge list of a non-error `partial_charges` result. -/
def resultCharges (r : Except String (List (Option ℚ) × List PCWarning)) :
    List (Option ℚ) :=
  match r with
  | Except.ok p => p.1
  | Except.error _ => []

/-- The warning list of a non-error `partial_charges` result. -/
def resultWarnings (r : Except String (List (Option ℚ) × List PCWarning)) :
    List PCWarning :=
  match r with
  | Except.ok p => p.2
  | Except.error _ => []

/-- Whether `x` is a finite value within `tol` of `target`. -/
def within (x : Option ℚ) (target tol : ℚ) : Bool :=
  match x with
  | some q => decide (|q - target| ≤ tol)
  | none => false

/-- The fluoromethane topology of the doctest (lines 214–220): atoms
`C1, F1, H1, H2, H3`, carbon bonded to the fluorine and the three
hydrogens, no `charges` annotation (the biotite annotation category is
`charge`, so `atom_array.charges` raises and the buffer defaults to
zeros — the initial charges of the reference scenario). -/
def fluoromethane : AtomArrayModel where
  element := ["C", "F", "H", "H", "H"]
  bonds := some [(0, 1, 1), (0, 2, 1), (0, 3, 1), (0, 4, 1)]
  charges := none

/-- Total charge of a buffer, reading NaN entries as `0` (used only in
statements whose hypotheses keep every entry finite). -/
def sumD (l : List (Option ℚ)) : ℚ := (l.map (fun x => x.getD 0)).sum

/-- Every entry of the buffer is finite (no NaN). -/
def allFinite (l : List (Option ℚ)) : Prop := ∀ x ∈ l, x ≠ none

/-- Whether a warning is the missing-parameters diagnostic. -/
def isUnparametrizedWarning : PCWarning → Bool
  | PCWarning.unparametrizedElements _ => true
  | _ => false

/-- A single carbon atom with an empty bond list: its valence is `0`,
which no element has a table entry for. -/
def loneCarbon : AtomArrayModel where
  element := ["C"]
  bonds := some []
  charges := some [0]

/-- Helium bonded to hydrogen: helium has no table entry at all, the
hydrogen is parametrized. -/
def heliumHydride : AtomArrayModel where
  element := ["He", "H"]
  bonds := some [(0, 1, 1)]
  charges := some [0, 0]

/-- An H–H molecule plus an unbonded helium atom (index 2). -/
def h2WithHelium : AtomArrayModel where
  element := ["H", "H", "He"]
  bonds := some [(0, 1, 1)]
  charges := some [0.25, -0.125, 0.5]


theorem getD_set_ne (l : List (Option ℚ)) (a i : ℕ) (x : Option ℚ) (h : a ≠ i) :
    (l.set a x).getD i none = l.getD i none := by
  simp [List.getD_eq_getElem?_getD, List.getElem?_set_ne h]

theorem getD_set_self (l : List (Option ℚ)) (i : ℕ) (x : Option ℚ) (h : i < l.length) :
    (l.set i x).getD i none = x := by
  simp [List.getD_eq_getElem?_getD, List.getElem?_set_self h]

theorem getD_none_of_le (l : List (Option ℚ)) (i : ℕ) (h : l.length ≤ i) :
    l.getD i none = none := by
  simp [List.getD_eq_getElem?_getD, List.getElem?_eq_none h]

theorem getD_set_self_none (l : List (Option ℚ)) (i : ℕ) :
    (l.set i none).getD i none = none := by
  by_cases h : i < l.length
  · exact getD_set_self l i none h
  · rw [getD_none_of_le]
    simpa using Nat.le_of_not_lt h

theorem processBond_eq_transfer (damping : ℚ) (en pos cs : List (Option ℚ))
    (a b t : ℕ) (ena enb : ℚ)
    (hA : en.getD a none = some ena) (hB : en.getD b none = some enb) :
    processBond damping en pos cs (a, b, t) =
      (let divisor := if ena < enb then pos.getD a none else pos.getD b none
       let ct := omul (odiv (osub (some enb) (some ena)) divisor) (some damping)
       let cs1 := cs.set a (oadd (cs.getD a none) ct)
       cs1.set b (osub (cs1.getD b none) ct)) := by
  simp only [processBond, hA, hB, olt, decide_eq_true_eq]

theorem processBond_poison_both (damping : ℚ) (en pos cs : List (Option ℚ)) (a b t : ℕ)
    (hA : en.getD a none = none) (hB : en.getD b none = none) :
    processBond damping en pos cs (a, b, t) = (cs.set a none).set b none := by
  simp only [processBond, hA, hB]

theorem processBond_poison_left (damping : ℚ) (en pos cs : List (Option ℚ)) (a b t : ℕ)
    (enb : ℚ) (hA : en.getD a none = none) (hB : en.getD b none = some enb) :
    processBond damping en pos cs (a, b, t) = cs.set a none := by
  simp only [processBond, hA, hB]

theorem processBond_poison_right (damping : ℚ) (en pos cs : List (Option ℚ)) (a b t : ℕ)
    (ena : ℚ) (hA : en.getD a none = some ena) (hB : en.getD b none = none) :
    processBond damping en pos cs (a, b, t) = cs.set b none := by
  simp only [processBond, hA, hB]

theorem processBond_length (damping : ℚ) (en pos cs : List (Option ℚ)) (bond : ℕ × ℕ × ℕ) :
    (processBond damping en pos cs bond).length = cs.length := by
  obtain ⟨a, b, t⟩ := bond
  rcases hA : en.getD a none with _ | ena <;> rcases hB : en.getD b none with _ | enb <;>
    simp only [processBond, hA, hB] <;> simp


theorem processBond_getD_untouched (damping : ℚ) (en pos cs : List (Option ℚ))
    (bond : ℕ × ℕ × ℕ) (i : ℕ) (h1 : bond.1 ≠ i) (h2 : bond.2.1 ≠ i) :
    (processBond damping en pos cs bond).getD i none = cs.getD i none := by
  obtain ⟨a, b, t⟩ := bond
  simp only at h1 h2
  rcases hA : en.getD a none with _ | ena <;> rcases hB : en.getD b none with _ | enb <;>
    simp only [processBond, hA, hB] <;>
    simp only [getD_set_ne _ _ _ _ h1, getD_set_ne _ _ _ _ h2]

theorem processBond_absorb_none (damping : ℚ) (en pos cs : List (Option ℚ))
    (bond : ℕ × ℕ × ℕ) (i : ℕ) (hen : en.getD i none = none)
    (hcs : cs.getD i none = none) :
    (processBond damping en pos cs bond).getD i none = none := by
  obtain ⟨a, b, t⟩ := bond
  by_cases ha : a = i
  · subst ha
    rcases hB : en.getD b none with _ | enb
    · rw [processBond_poison_both damping en pos cs a b t hen hB]
      by_cases hb : b = a
      · subst hb; exact getD_set_self_none _ _
      · rw [getD_set_ne _ _ _ _ hb]; exact getD_set_self_none _ _
    · rw [processBond_poison_left damping en pos cs a b t enb hen hB]
      exact getD_set_self_none _ _
  · by_cases hb : b = i
    · subst hb
      rcases hA : en.getD a none with _ | ena
      · rw [processBond_poison_both damping en pos cs a b t hA hen]
        exact getD_set_self_none _ _
      · rw [processBond_poison_right damping en pos cs a b t ena hA hen]
        exact getD_set_self_none _ _
    · rw [processBond_getD_untouched damping en pos cs (a, b, t) i ha hb]
      exact hcs

theorem processBond_trigger_none (damping : ℚ) (en pos cs : List (Option ℚ))
    (bond : ℕ × ℕ × ℕ) (i : ℕ) (hen : en.getD i none = none)
    (hit : bond.1 = i ∨ bond.2.1 = i) :
    (processBond damping en pos cs bond).getD i none = none := by
  obtain ⟨a, b, t⟩ := bond
  rcases hit with ha | hb
  · subst ha
    rcases hB : en.getD b none with _ | enb
    · rw [processBond_poison_both damping en pos cs a b t hen hB]
      by_cases hb : b = a
      · subst hb; exact getD_set_self_none _ _
      · rw [getD_set_ne _ _ _ _ hb]; exact getD_set_self_none _ _
    · rw [processBond_poison_left damping en pos cs a b t enb hen hB]
      exact getD_set_self_none _ _
  · simp only at hb
    subst hb
    rcases hA : en.getD a none with _ | ena
    · rw [processBond_poison_both damping en pos cs a b t hA hen]
      exact getD_set_self_none _ _
    · rw [processBond_poison_right damping en pos cs a b t ena hA hen]
      exact getD_set_self_none _ _


theorem sumD_set (l : List (Option ℚ)) (i : ℕ) (x : Option ℚ) (h : i < l.length) :
    sumD (l.set i x) = sumD l - (l.getD i none).getD 0 + x.getD 0 := by
  induction l generalizing i with
  | nil => simp at h
  | cons c t ih =>
    cases i with
    | zero => simp [sumD]; ring
    | succ m =>
      have hm : m < t.length := by simpa using h
      simp only [List.set_cons_succ, sumD, List.map_cons, List.sum_cons, List.getD_cons_succ]
      have := ih m hm
      simp only [sumD] at this
      rw [this]
      ring

theorem allFinite_set (l : List (Option ℚ)) (i : ℕ) (x : Option ℚ)
    (hl : allFinite l) (hx : x ≠ none) : allFinite (l.set i x) := by
  intro y hy
  rcases List.mem_or_eq_of_mem_set hy with h | h
  · exact hl y h
  · rw [h]; exact hx

theorem allFinite_getD (l : List (Option ℚ)) (i : ℕ) (hl : allFinite l)
    (h : i < l.length) : l.getD i none ≠ none := by
  rw [List.getD_eq_getElem?_getD, List.getElem?_eq_getElem h]
  exact hl _ (List.getElem_mem h)

theorem getD_lt_length_of_ne_none (l : List (Option ℚ)) (i : ℕ)
    (h : l.getD i none ≠ none) : i < l.length := by
  by_contra hc
  exact h (getD_none_of_le l i (Nat.le_of_not_lt hc))

theorem processBond_preserves_finite_at (damping : ℚ) (en pos cs : List (Option ℚ))
    (bond : ℕ × ℕ × ℕ) (i : ℕ)
    (hen : en.getD i none ≠ none)
    (hpos : ∀ k, en.getD k none ≠ none → pos.getD k none ≠ none)
    (hcs : cs.getD i none ≠ none) :
    (processBond damping en pos cs bond).getD i none ≠ none := by
  obtain ⟨a, b, t⟩ := bond
  have hlen : i < cs.length := getD_lt_length_of_ne_none cs i hcs
  rcases hA : en.getD a none with _ | ena <;> rcases hB : en.getD b none with _ | enb
  · rw [processBond_poison_both damping en pos cs a b t hA hB]
    have ha : a ≠ i := fun h => hen (h ▸ hA)
    have hb : b ≠ i := fun h => hen (h ▸ hB)
    rw [getD_set_ne _ _ _ _ hb, getD_set_ne _ _ _ _ ha]
    exact hcs
  · rw [processBond_poison_left damping en pos cs a b t enb hA hB]
    have ha : a ≠ i := fun h => hen (h ▸ hA)
    rw [getD_set_ne _ _ _ _ ha]
    exact hcs
  · rw [processBond_poison_right damping en pos cs a b t ena hA hB]
    have hb : b ≠ i := fun h => hen (h ▸ hB)
    rw [getD_set_ne _ _ _ _ hb]
    exact hcs
  · rw [processBond_eq_transfer damping en pos cs a b t ena enb hA hB]
    obtain ⟨da, hda⟩ := Option.ne_none_iff_exists'.mp
      (hpos a (by rw [hA]; exact Option.some_ne_none _))
    obtain ⟨db, hdb⟩ := Option.ne_none_iff_exists'.mp
      (hpos b (by rw [hB]; exact Option.some_ne_none _))
    obtain ⟨qi, hqi⟩ := Option.ne_none_iff_exists'.mp hcs
    have hdiv : ∃ dv : ℚ, (if ena < enb then pos.getD a none else pos.getD b none) = some dv := by
      by_cases hlt : ena < enb
      · exact ⟨da, by rw [if_pos hlt, hda]⟩
      · exact ⟨db, by rw [if_neg hlt, hdb]⟩
    obtain ⟨dv, hdv⟩ := hdiv
    simp only [hdv, omul, odiv, osub]
    by_cases hb : b = i
    · subst hb
      rw [getD_set_self _ _ _ (by simpa using hlen)]
      by_cases ha : a = b
      · subst ha
        rw [getD_set_self _ _ _ hlen, hqi]
        simp [oadd]
      · rw [getD_set_ne _ _ _ _ ha, hqi]
        simp [oadd]
    · rw [getD_set_ne _ _ _ _ hb]
      by_cases ha : a = i
      · subst ha
        rw [getD_set_self _ _ _ hlen, hqi]
        simp [oadd]
      · rw [getD_set_ne _ _ _ _ ha]
        exact hcs


theorem processBond_conserves (damping : ℚ) (en pos cs : List (Option ℚ))
    (a b t : ℕ) (ena enb : ℚ)
    (hA : en.getD a none = some ena) (hB : en.getD b none = some enb)
    (hda : pos.getD a none ≠ none) (hdb : pos.getD b none ≠ none)
    (ha : a < cs.length) (hb : b < cs.length) (hfin : allFinite cs) :
    allFinite (processBond damping en pos cs (a, b, t)) ∧
      sumD (processBond damping en pos cs (a, b, t)) = sumD cs := by
  rw [processBond_eq_transfer damping en pos cs a b t ena enb hA hB]
  obtain ⟨dva, hdva⟩ := Option.ne_none_iff_exists'.mp hda
  obtain ⟨dvb, hdvb⟩ := Option.ne_none_iff_exists'.mp hdb
  obtain ⟨qa, hqa⟩ := Option.ne_none_iff_exists'.mp (allFinite_getD cs a hfin ha)
  have hdiv : ∃ dv : ℚ, (if ena < enb then pos.getD a none else pos.getD b none) = some dv := by
    by_cases hlt : ena < enb
    · exact ⟨dva, by rw [if_pos hlt, hdva]⟩
    · exact ⟨dvb, by rw [if_neg hlt, hdvb]⟩
  obtain ⟨dv, hdv⟩ := hdiv
  simp only [hdv, omul, odiv, osub, hqa, oadd]
  have hfin1 : allFinite (cs.set a (some (qa + (enb - ena) / dv * damping))) :=
    allFinite_set cs a _ hfin (Option.some_ne_none _)
  have hlen1 : b < (cs.set a (some (qa + (enb - ena) / dv * damping))).length := by
    simpa using hb
  obtain ⟨qb, hqb⟩ := Option.ne_none_iff_exists'.mp (allFinite_getD _ b hfin1 hlen1)
  rw [hqb]
  simp only [osub]
  constructor
  · exact allFinite_set _ b _ hfin1 (Option.some_ne_none _)
  · rw [sumD_set _ b _ hlen1, sumD_set cs a _ ha, hqa, hqb]
    by_cases hab : a = b
    · subst hab
      rw [getD_set_self cs a _ ha] at hqb
      have : qb = qa + (enb - ena) / dv * damping := by
        simpa using hqb.symm
      rw [this]
      simp
    · rw [getD_set_ne cs a b _ hab] at hqb
      simp only [Option.getD_some]
      ring


theorem foldl_processBond_length (damping : ℚ) (en pos : List (Option ℚ))
    (bonds : List (ℕ × ℕ × ℕ)) :
    ∀ cs, (bonds.foldl (processBond damping en pos) cs).length = cs.length := by
  induction bonds with
  | nil => intro cs; rfl
  | cons hd tl ih =>
    intro cs
    rw [List.foldl_cons, ih, processBond_length]

theorem foldl_processBond_untouched (damping : ℚ) (en pos : List (Option ℚ))
    (bonds : List (ℕ × ℕ × ℕ)) (i : ℕ)
    (hiso : ∀ b ∈ bonds, b.1 ≠ i ∧ b.2.1 ≠ i) :
    ∀ cs, (bonds.foldl (processBond damping en pos) cs).getD i none = cs.getD i none := by
  induction bonds with
  | nil => intro cs; rfl
  | cons hd tl ih =>
    intro cs
    rw [List.foldl_cons, ih (fun b hb => hiso b (List.mem_cons_of_mem hd hb)),
      processBond_getD_untouched damping en pos cs hd i
        (hiso hd (List.mem_cons_self hd tl)).1 (hiso hd (List.mem_cons_self hd tl)).2]

theorem foldl_processBond_absorb (damping : ℚ) (en pos : List (Option ℚ))
    (bonds : List (ℕ × ℕ × ℕ)) (i : ℕ) (hen : en.getD i none = none) :
    ∀ cs, cs.getD i none = none →
      (bonds.foldl (processBond damping en pos) cs).getD i none = none := by
  induction bonds with
  | nil => intro cs hcs; exact hcs
  | cons hd tl ih =>
    intro cs hcs
    rw [List.foldl_cons]
    exact ih _ (processBond_absorb_none damping en pos cs hd i hen hcs)

theorem foldl_processBond_trigger (damping : ℚ) (en pos : List (Option ℚ))
    (bonds : List (ℕ × ℕ × ℕ)) (i : ℕ) (hen : en.getD i none = none)
    (hit : ∃ b ∈ bonds, b.1 = i ∨ b.2.1 = i) :
    ∀ cs, (bonds.foldl (processBond damping en pos) cs).getD i none = none := by
  induction bonds with
  | nil => exact absurd hit (by simp)
  | cons hd tl ih =>
    intro cs
    rw [List.foldl_cons]
    by_cases hhd : hd.1 = i ∨ hd.2.1 = i
    · exact foldl_processBond_absorb damping en pos tl i hen _
        (processBond_trigger_none damping en pos cs hd i hen hhd)
    · have : ∃ b ∈ tl, b.1 = i ∨ b.2.1 = i := by
        rcases hit with ⟨b, hb, hbi⟩
        rcases List.mem_cons.mp hb with rfl | hbtl
        · exact absurd hbi hhd
        · exact ⟨b, hbtl, hbi⟩
      exact ih this _

theorem foldl_processBond_finite_at (damping : ℚ) (en pos : List (Option ℚ))
    (bonds : List (ℕ × ℕ × ℕ)) (i : ℕ)
    (hen : en.getD i none ≠ none)
    (hpos : ∀ k, en.getD k none ≠ none → pos.getD k none ≠ none) :
    ∀ cs, cs.getD i none ≠ none →
      (bonds.foldl (processBond damping en pos) cs).getD i none ≠ none := by
  induction bonds with
  | nil => intro cs hcs; exact hcs
  | cons hd tl ih =>
    intro cs hcs
    rw [List.foldl_cons]
    exact ih _ (processBond_preserves_finite_at damping en pos cs hd i hen hpos hcs)

theorem foldl_processBond_conserves (damping : ℚ) (en pos : List (Option ℚ))
    (bonds : List (ℕ × ℕ × ℕ)) (n : ℕ)
    (hbonds : ∀ b ∈ bonds, b.1 < n ∧ b.2.1 < n)
    (hen : ∀ k, k < n → en.getD k none ≠ none)
    (hpos : ∀ k, k < n → pos.getD k none ≠ none) :
    ∀ cs, cs.length = n → allFinite cs →
      allFinite (bonds.foldl (processBond damping en pos) cs) ∧
        (bonds.foldl (processBond damping en pos) cs).length = n ∧
        sumD (bonds.foldl (processBond damping en pos) cs) = sumD cs := by
  induction bonds with
  | nil => intro cs hlen hfin; exact ⟨hfin, hlen, rfl⟩
  | cons hd tl ih =>
    intro cs hlen hfin
    obtain ⟨ha, hb⟩ := hbonds hd (List.mem_cons_self hd tl)
    obtain ⟨ena, hena⟩ := Option.ne_none_iff_exists'.mp (hen hd.1 ha)
    obtain ⟨enb, henb⟩ := Option.ne_none_iff_exists'.mp (hen hd.2.1 hb)
    have hstep := processBond_conserves damping en pos cs hd.1 hd.2.1 hd.2.2 ena enb
      hena henb (hpos hd.1 ha) (hpos hd.2.1 hb) (hlen ▸ ha) (hlen ▸ hb) hfin
    have htl := ih (fun b hb => hbonds b (List.mem_cons_of_mem hd hb))
      (processBond damping en pos cs hd) (by rw [processBond_length, hlen]) hstep.1
    rw [List.foldl_cons]
    refine ⟨htl.1, htl.2.1, ?_⟩
    have hhd : processBond damping en pos cs (hd.1, hd.2.1, hd.2.2) =
        processBond damping en pos cs hd := by rfl
    rw [htl.2.2, ← hhd, hstep.2]


theorem getD_ne_none_lt_length {α : Type} (l : List (Option α)) (i : ℕ)
    (h : l.getD i none ≠ none) : i < l.length := by
  by_contra hc
  apply h
  simp [List.getD_eq_getElem?_getD, List.getElem?_eq_none (Nat.le_of_not_lt hc)]

theorem getD_ne_none_getElem {α : Type} (l : List (Option α)) (i : ℕ)
    (h : l.getD i none ≠ none) : l[i]? = some (l.getD i none) := by
  rw [List.getD_eq_getElem?_getD,
    List.getElem?_eq_getElem (getD_ne_none_lt_length l i h)]
  rfl

theorem en_getD_none_of_param_none (ps : List (Option (ℚ × ℚ × ℚ)))
    (cs : List (Option ℚ)) (i : ℕ) (h : ps.getD i none = none) :
    (List.zipWith enValue ps cs).getD i none = none := by
  simp only [List.getD_eq_getElem?_getD, List.getElem?_zipWith] at h ⊢
  rcases hp : ps[i]? with _ | p <;> rcases hc : cs[i]? with _ | c <;>
    simp [hp, hc] at h ⊢ <;> simp [h, enValue]

theorem en_getD_ne_none (ps : List (Option (ℚ × ℚ × ℚ))) (cs : List (Option ℚ)) (i : ℕ)
    (hp : ps.getD i none ≠ none) (hc : cs.getD i none ≠ none) :
    (List.zipWith enValue ps cs).getD i none ≠ none := by
  obtain ⟨p, hpv⟩ := Option.ne_none_iff_exists'.mp hp
  obtain ⟨q, hqv⟩ := Option.ne_none_iff_exists'.mp hc
  have hpe : ps[i]? = some (some p) := by
    rw [← hpv]; exact getD_ne_none_getElem ps i hp
  have hqe : cs[i]? = some (some q) := by
    rw [← hqv]; exact getD_ne_none_getElem cs i hc
  simp only [List.getD_eq_getElem?_getD, List.getElem?_zipWith, hpe, hqe]
  obtain ⟨a, bc⟩ := p
  obtain ⟨b, c⟩ := bc
  simp [enValue]

theorem posEnValue_ne_none (p : Option (ℚ × ℚ × ℚ)) (h : p ≠ none) :
    posEnValue p ≠ none := by
  obtain ⟨v, rfl⟩ := Option.ne_none_iff_exists'.mp h
  obtain ⟨a, bc⟩ := v
  obtain ⟨b, c⟩ := bc
  rw [posEnValue]
  split <;> simp

theorem pos_getD_ne_none (ps : List (Option (ℚ × ℚ × ℚ))) (i : ℕ)
    (hp : ps.getD i none ≠ none) :
    (ps.map posEnValue).getD i none ≠ none := by
  obtain ⟨p, hpv⟩ := Option.ne_none_iff_exists'.mp hp
  have hpe : ps[i]? = some (some p) := by
    rw [← hpv]; exact getD_ne_none_getElem ps i hp
  rw [List.getD_eq_getElem?_getD, List.getElem?_map, hpe]
  simpa using posEnValue_ne_none (some p) (Option.some_ne_none _)

theorem en_param_ne_none (ps : List (Option (ℚ × ℚ × ℚ))) (cs : List (Option ℚ)) (i : ℕ)
    (hen : (List.zipWith enValue ps cs).getD i none ≠ none) :
    ps.getD i none ≠ none := by
  intro hp
  exact hen (en_getD_none_of_param_none ps cs i hp)

theorem pos_getD_of_en_ne_none (ps : List (Option (ℚ × ℚ × ℚ))) (cs : List (Option ℚ))
    (i : ℕ) (hen : (List.zipWith enValue ps cs).getD i none ≠ none) :
    (ps.map posEnValue).getD i none ≠ none :=
  pos_getD_ne_none ps i (en_param_ne_none ps cs i hen)

theorem iterationStep_length (params : List (Option (ℚ × ℚ × ℚ)))
    (bonds : List (ℕ × ℕ × ℕ)) (damping : ℚ) (cs : List (Option ℚ)) :
    (iterationStep params bonds damping cs).length = cs.length := by
  simp only [iterationStep]
  exact foldl_processBond_length _ _ _ bonds cs

theorem iterationStep_finite_at (params : List (Option (ℚ × ℚ × ℚ)))
    (bonds : List (ℕ × ℕ × ℕ)) (damping : ℚ) (cs : List (Option ℚ)) (i : ℕ)
    (hp : params.getD i none ≠ none) (hc : cs.getD i none ≠ none) :
    (iterationStep params bonds damping cs).getD i none ≠ none := by
  simp only [iterationStep]
  exact foldl_processBond_finite_at _ _ _ bonds i
    (en_getD_ne_none params cs i hp hc)
    (fun k => pos_getD_of_en_ne_none params cs k) cs hc

theorem iterationStep_absorb (params : List (Option (ℚ × ℚ × ℚ)))
    (bonds : List (ℕ × ℕ × ℕ)) (damping : ℚ) (cs : List (Option ℚ)) (i : ℕ)
    (hp : params.getD i none = none) (hc : cs.getD i none = none) :
    (iterationStep params bonds damping cs).getD i none = none := by
  simp only [iterationStep]
  exact foldl_processBond_absorb _ _ _ bonds i
    (en_getD_none_of_param_none params cs i hp) cs hc

theorem iterationStep_trigger (params : List (Option (ℚ × ℚ × ℚ)))
    (bonds : List (ℕ × ℕ × ℕ)) (damping : ℚ) (cs : List (Option ℚ)) (i : ℕ)
    (hp : params.getD i none = none) (hit : ∃ b ∈ bonds, b.1 = i ∨ b.2.1 = i) :
    (iterationStep params bonds damping cs).getD i none = none := by
  simp only [iterationStep]
  exact foldl_processBond_trigger _ _ _ bonds i
    (en_getD_none_of_param_none params cs i hp) hit cs

theorem iterationStep_untouched (params : List (Option (ℚ × ℚ × ℚ)))
    (bonds : List (ℕ × ℕ × ℕ)) (damping : ℚ) (cs : List (Option ℚ)) (i : ℕ)
    (hiso : ∀ b ∈ bonds, b.1 ≠ i ∧ b.2.1 ≠ i) :
    (iterationStep params bonds damping cs).getD i none = cs.getD i none := by
  simp only [iterationStep]
  exact foldl_processBond_untouched _ _ _ bonds i hiso cs

theorem iterationStep_conserves (params : List (Option (ℚ × ℚ × ℚ)))
    (bonds : List (ℕ × ℕ × ℕ)) (damping : ℚ) (cs : List (Option ℚ)) (n : ℕ)
    (hbonds : ∀ b ∈ bonds, b.1 < n ∧ b.2.1 < n)
    (hparams : ∀ k, k < n → params.getD k none ≠ none)
    (hcs : cs.length = n) (hfin : allFinite cs) :
    allFinite (iterationStep params bonds damping cs) ∧
      (iterationStep params bonds damping cs).length = n ∧
      sumD (iterationStep params bonds damping cs) = sumD cs := by
  simp only [iterationStep]
  exact foldl_processBond_conserves _ _ _ bonds n hbonds
    (fun k hk => en_getD_ne_none params cs k (hparams k hk)
      (allFinite_getD cs k hfin (hcs ▸ hk)))
    (fun k hk => pos_getD_ne_none params k (hparams k hk)) cs hcs hfin


theorem peoeIters_length (params : List (Option (ℚ × ℚ × ℚ))) (bonds : List (ℕ × ℕ × ℕ)) :
    ∀ (m : ℕ) (d : ℚ) (cs : List (Option ℚ)),
      (peoeIters params bonds m d cs).length = cs.length := by
  intro m
  induction m with
  | zero => intro d cs; rfl
  | succ k ih =>
    intro d cs
    rw [peoeIters, ih, iterationStep_length]

theorem peoeIters_finite_at (params : List (Option (ℚ × ℚ × ℚ)))
    (bonds : List (ℕ × ℕ × ℕ)) (i : ℕ) (hp : params.getD i none ≠ none) :
    ∀ (m : ℕ) (d : ℚ) (cs : List (Option ℚ)), cs.getD i none ≠ none →
      (peoeIters params bonds m d cs).getD i none ≠ none := by
  intro m
  induction m with
  | zero => intro d cs hc; exact hc
  | succ k ih =>
    intro d cs hc
    rw [peoeIters]
    exact ih _ _ (iterationStep_finite_at params bonds _ cs i hp hc)

theorem peoeIters_absorb (params : List (Option (ℚ × ℚ × ℚ)))
    (bonds : List (ℕ × ℕ × ℕ)) (i : ℕ) (hp : params.getD i none = none) :
    ∀ (m : ℕ) (d : ℚ) (cs : List (Option ℚ)), cs.getD i none = none →
      (peoeIters params bonds m d cs).getD i none = none := by
  intro m
  induction m with
  | zero => intro d cs hc; exact hc
  | succ k ih =>
    intro d cs hc
    rw [peoeIters]
    exact ih _ _ (iterationStep_absorb params bonds _ cs i hp hc)

theorem peoeIters_trigger (params : List (Option (ℚ × ℚ × ℚ)))
    (bonds : List (ℕ × ℕ × ℕ)) (i : ℕ) (hp : params.getD i none = none)
    (hit : ∃ b ∈ bonds, b.1 = i ∨ b.2.1 = i) (m : ℕ) (hm : 1 ≤ m) :
    ∀ (d : ℚ) (cs : List (Option ℚ)),
      (peoeIters params bonds m d cs).getD i none = none := by
  cases m with
  | zero => exact absurd hm (by omega)
  | succ k =>
  intro d cs
  rw [peoeIters]
  exact peoeIters_absorb params bonds i hp k _ _
    (iterationStep_trigger params bonds _ cs i hp hit)

theorem peoeIters_untouched (params : List (Option (ℚ × ℚ × ℚ)))
    (bonds : List (ℕ × ℕ × ℕ)) (i : ℕ)
    (hiso : ∀ b ∈ bonds, b.1 ≠ i ∧ b.2.1 ≠ i) :
    ∀ (m : ℕ) (d : ℚ) (cs : List (Option ℚ)),
      (peoeIters params bonds m d cs).getD i none = cs.getD i none := by
  intro m
  induction m with
  | zero => intro d cs; rfl
  | succ k ih =>
    intro d cs
    rw [peoeIters, ih, iterationStep_untouched params bonds _ cs i hiso]

theorem peoeIters_conserves (params : List (Option (ℚ × ℚ × ℚ)))
    (bonds : List (ℕ × ℕ × ℕ)) (n : ℕ)
    (hbonds : ∀ b ∈ bonds, b.1 < n ∧ b.2.1 < n)
    (hparams : ∀ k, k < n → params.getD k none ≠ none) :
    ∀ (m : ℕ) (d : ℚ) (cs : List (Option ℚ)), cs.length = n → allFinite cs →
      allFinite (peoeIters params bonds m d cs) ∧
        (peoeIters params bonds m d cs).length = n ∧
        sumD (peoeIters params bonds m d cs) = sumD cs := by
  intro m
  induction m with
  | zero => intro d cs hlen hfin; exact ⟨hfin, hlen, rfl⟩
  | succ k ih =>
    intro d cs hlen hfin
    have hstep := iterationStep_conserves params bonds (d * 0.5) cs n hbonds hparams hlen hfin
    have := ih (d * 0.5) _ hstep.2.1 hstep.1
    rw [peoeIters]
    exact ⟨this.1, this.2.1, this.2.2.trans hstep.2.2⟩

theorem peoeIters_eq_peoeItersAt (params : List (Option (ℚ × ℚ × ℚ)))
    (bonds : List (ℕ × ℕ × ℕ)) :
    ∀ (n k : ℕ) (cs : List (Option ℚ)),
      peoeIters params bonds n ((2 : ℚ)⁻¹ ^ k) cs = peoeItersAt params bonds k n cs := by
  intro n
  induction n with
  | zero => intro k cs; rfl
  | succ m ih =>
    intro k cs
    rw [peoeIters, peoeItersAt]
    have hpow : (2 : ℚ)⁻¹ ^ k * 0.5 = (2 : ℚ)⁻¹ ^ (k + 1) := by
      rw [pow_succ]
      norm_num
    rw [hpow, ih]


theorem zip_getElem (l1 : List String) (l2 : List ℕ) (i : ℕ) (h1 : i < l1.length)
    (h2 : i < l2.length) :
    (List.zip l1 l2)[i]? = some (l1.getD i "", l2.getD i 0) := by
  simp [List.getElem?_zip_eq_some, List.getD_eq_getElem?_getD, List.getElem?_eq_getElem, h1, h2]

theorem get_parameters_fst_getD (elements : List String) (valences : List ℕ) (i : ℕ)
    (h1 : i < elements.length) (h2 : i < valences.length) :
    (get_parameters elements valences).1.getD i none =
      EN_PARAMETERS (elements.getD i "") (valences.getD i 0) := by
  simp only [get_parameters]
  rw [List.getD_eq_getElem?_getD, List.getElem?_map, zip_getElem elements valences i h1 h2]
  rfl

theorem get_parameters_fst_length (elements : List String) (valences : List ℕ) :
    (get_parameters elements valences).1.length = min elements.length valences.length := by
  simp [get_parameters]

theorem npUnique_mem (l : List String) (el : String) : el ∈ npUnique l ↔ el ∈ l := by
  unfold npUnique
  rw [(List.mergeSort_perm _ _).mem_iff]
  exact List.mem_dedup

theorem npUnique_count (l : List String) (el : String) (h : el ∈ l) :
    (npUnique l).count el = 1 := by
  unfold npUnique
  rw [(List.mergeSort_perm _ _).count_eq, List.count_dedup]
  simp [h]

theorem get_parameters_snd_of_missing (elements : List String) (valences : List ℕ) (i : ℕ)
    (h1 : i < elements.length) (h2 : i < valences.length)
    (hmiss : EN_PARAMETERS (elements.getD i "") (valences.getD i 0) = none) :
    ∃ lst, lst ≠ [] ∧ elements.getD i "" ∈ lst ∧
      (get_parameters elements valences).2 = [PCWarning.unparametrizedElements (npUnique lst)] := by
  refine ⟨(List.zip elements valences).filterMap
    (fun p => if EN_PARAMETERS p.1 p.2 = none then some p.1 else none), ?_, ?_, ?_⟩
  · intro hnil
    rw [List.filterMap_eq_nil_iff] at hnil
    have hmem : (elements.getD i "", valences.getD i 0) ∈ List.zip elements valences := by
      have := zip_getElem elements valences i h1 h2
      exact List.getElem?_mem this
    have := hnil _ hmem
    rw [if_pos hmiss] at this
    exact Option.some_ne_none _ this
  · rw [List.mem_filterMap]
    refine ⟨(elements.getD i "", valences.getD i 0), ?_, ?_⟩
    · exact List.getElem?_mem (zip_getElem elements valences i h1 h2)
    · rw [if_pos hmiss]
  · simp only [get_parameters]
    rw [if_neg]
    intro hnil
    rw [List.filterMap_eq_nil_iff] at hnil
    have hmem : (elements.getD i "", valences.getD i 0) ∈ List.zip elements valences :=
      List.getElem?_mem (zip_getElem elements valences i h1 h2)
    have := hnil _ hmem
    rw [if_pos hmiss] at this
    exact Option.some_ne_none _ this

theorem mem_missing_of_lookup_none (elements : List String) (valences : List ℕ) (i : ℕ)
    (h1 : i < elements.length) (h2 : i < valences.length)
    (hmiss : EN_PARAMETERS (elements.getD i "") (valences.getD i 0) = none) :
    elements.getD i "" ∈ (List.zip elements valences).filterMap
      (fun p => if EN_PARAMETERS p.1 p.2 = none then some p.1 else none) := by
  rw [List.mem_filterMap]
  exact ⟨(elements.getD i "", valences.getD i 0),
    List.getElem?_mem (zip_getElem elements valences i h1 h2), by rw [if_pos hmiss]⟩

theorem get_parameters_snd_eq (elements : List String) (valences : List ℕ) (i : ℕ)
    (h1 : i < elements.length) (h2 : i < valences.length)
    (hmiss : EN_PARAMETERS (elements.getD i "") (valences.getD i 0) = none) :
    (get_parameters elements valences).2 =
      [PCWarning.unparametrizedElements (npUnique ((List.zip elements valences).filterMap
        (fun p => if EN_PARAMETERS p.1 p.2 = none then some p.1 else none)))] := by
  simp only [get_parameters]
  rw [if_neg]
  intro hnil
  rw [List.filterMap_eq_nil_iff] at hnil
  have := hnil _ (List.getElem?_mem (zip_getElem elements valences i h1 h2))
  rw [if_pos hmiss] at this
  exact Option.some_ne_none _ this

theorem get_parameters_snd_of_none (elements : List String) (valences : List ℕ)
    (hall : ∀ p ∈ List.zip elements valences, EN_PARAMETERS p.1 p.2 ≠ none) :
    (get_parameters elements valences).2 = [] := by
  simp only [get_parameters]
  rw [if_pos]
  rw [List.filterMap_eq_nil_iff]
  intro p hp
  rw [if_neg (hall p hp)]


theorem EN_PARAMETERS_valence_zero : ∀ element, EN_PARAMETERS element 0 = none := by
  intro el
  unfold EN_PARAMETERS
  split <;> simp

theorem amountOfBindingPartners_length (atom_array : AtomArrayModel)
    (bondArr : List (ℕ × ℕ × ℕ)) :
    (amountOfBindingPartners atom_array bondArr).length = atom_array.element.length := by
  simp [amountOfBindingPartners]

theorem amountOfBindingPartners_getD (atom_array : AtomArrayModel)
    (bondArr : List (ℕ × ℕ × ℕ)) (i : ℕ) (h : i < atom_array.element.length) :
    (amountOfBindingPartners atom_array bondArr).getD i 0 =
      (bondedAtoms bondArr i).length := by
  simp [amountOfBindingPartners, List.getD_eq_getElem?_getD, List.getElem?_range, h]

theorem bondedAtoms_nil_iff (bondArr : List (ℕ × ℕ × ℕ)) (i : ℕ) :
    bondedAtoms bondArr i = [] ↔ ∀ b ∈ bondArr, b.1 ≠ i ∧ b.2.1 ≠ i := by
  unfold bondedAtoms
  rw [List.filterMap_eq_nil_iff]
  constructor
  · intro h b hb
    have := h b hb
    constructor
    · intro hb1
      rw [if_pos hb1] at this
      exact Option.some_ne_none _ this
    · intro hb2
      by_cases hb1 : b.1 = i
      · rw [if_pos hb1] at this
        exact Option.some_ne_none _ this
      · rw [if_neg hb1, if_pos hb2] at this
        exact Option.some_ne_none _ this
  · intro h b hb
    rw [if_neg (h b hb).1, if_neg (h b hb).2]

theorem resolveInitialCharges_snd (atom_array : AtomArrayModel) (charges : Option (List ℚ)) :
    (resolveInitialCharges atom_array charges).2 = [] ∨
      (resolveInitialCharges atom_array charges).2 = [PCWarning.chargesDefaulted] := by
  unfold resolveInitialCharges
  rcases charges with _ | cs
  · rcases atom_array.charges with _ | cs2 <;> simp
  · simp

theorem partial_charges_eq (atom_array : AtomArrayModel) (bondArr : List (ℕ × ℕ × ℕ))
    (iteration_step_num : ℕ) (charges : Option (List ℚ))
    (hb : atom_array.bonds = some bondArr) :
    partial_charges atom_array iteration_step_num charges = Except.ok
      (peoeIters
        (get_parameters atom_array.element (amountOfBindingPartners atom_array bondArr)).1
        bondArr iteration_step_num 1
        ((resolveInitialCharges atom_array charges).1.map some),
       (resolveInitialCharges atom_array charges).2 ++
         (get_parameters atom_array.element (amountOfBindingPartners atom_array bondArr)).2) := by
  unfold partial_charges
  rw [hb]

theorem sumD_map_some (cs : List ℚ) : sumD (cs.map some) = cs.sum := by
  induction cs with
  | nil => rfl
  | cons c t ih =>
    simp only [List.map_cons, sumD, List.sum_cons] at ih ⊢
    rw [ih]
    rfl

theorem allFinite_map_some (cs : List ℚ) : allFinite (cs.map some) := by
  intro x hx
  obtain ⟨q, _, rfl⟩ := List.mem_map.mp hx
  exact Option.some_ne_none _

theorem map_some_getD (cs : List ℚ) (i : ℕ) (h : i < cs.length) :
    (cs.map some).getD i none = some (cs.getD i 0) := by
  rw [List.getD_eq_getElem?_getD, List.getElem?_map, List.getElem?_eq_getElem h,
    List.getD_eq_getElem?_getD, List.getElem?_eq_getElem h]
  rfl


/-- C7: when the input atom collection has no associated bond graph,
`partial_charges` raises the `AttributeError` before any computation,
for every `iteration_step_num` and every `charges` argument: the result
is the error alone, so no charge buffer is mutated, no parameter lookup
or warning happens, and no partial result is produced. -/
theorem missing_bond_list_raises (atom_array : AtomArrayModel)
    (iteration_step_num : ℕ) (charges : Option (List ℚ))
    (h : atom_array.bonds = none) :
    partial_charges atom_array iteration_step_num charges =
      Except.error "The input AtomArray doesn't possess an associated BondList." := by
  unfold partial_charges
  rw [h]

theorem missing_bond_list_raises_witness :
    partial_charges (AtomArrayModel.mk ["C"] none none) 6 none =
      Except.error "The input AtomArray doesn't possess an associated BondList." :=
  missing_bond_list_raises (AtomArrayModel.mk ["C"] none none) 6 none rfl

/-- C1: for a bond `(i, j)` whose endpoint electronegativities are both
non-NaN, the update divides by `ENplus(i)` when `EN(j) > EN(i)` and by
`ENplus(j)` otherwise, adds `delta = damping * (EN(j) - EN(i)) / divisor`
to `charge[i]` and subtracts it from `charge[j]`; and the running
damping factor of the iteration loop is `2⁻¹ ^ k` in iteration `k`
(halved at the start of every step, starting from `1 = 2⁻¹ ^ 0`). -/
theorem bond_transfer_rule (damping : ℚ) (en pos cs : List (Option ℚ))
    (i j t : ℕ) (eni enj di dj qi qj : ℚ)
    (hij : i ≠ j) (hilen : i < cs.length) (hjlen : j < cs.length)
    (heni : en.getD i none = some eni) (henj : en.getD j none = some enj)
    (hdi : pos.getD i none = some di) (hdj : pos.getD j none = some dj)
    (hqi : cs.getD i none = some qi) (hqj : cs.getD j none = some qj) :
    ((processBond damping en pos cs (i, j, t)).getD i none =
        some (qi + damping * (enj - eni) / (if enj > eni then di else dj)) ∧
      (processBond damping en pos cs (i, j, t)).getD j none =
        some (qj - damping * (enj - eni) / (if enj > eni then di else dj))) ∧
    (∀ (params : List (Option (ℚ × ℚ × ℚ))) (bondArr : List (ℕ × ℕ × ℕ))
        (n k : ℕ) (cs0 : List (Option ℚ)),
      peoeIters params bondArr n ((2 : ℚ)⁻¹ ^ k) cs0 = peoeItersAt params bondArr k n cs0 ∧
      peoeIters params bondArr n 1 cs0 = peoeItersAt params bondArr 0 n cs0) := by
  constructor
  · rw [processBond_eq_transfer damping en pos cs i j t eni enj heni henj]
    simp only [gt_iff_lt]
    have hdiv : (if eni < enj then pos.getD i none else pos.getD j none) =
        some (if eni < enj then di else dj) := by
      by_cases hlt : eni < enj
      · rw [if_pos hlt, if_pos hlt, hdi]
      · rw [if_neg hlt, if_neg hlt, hdj]
    rw [hdiv]
    simp only [omul, odiv, osub, hqi]
    constructor
    · rw [getD_set_ne _ _ _ _ (Ne.symm hij), getD_set_self _ _ _ hilen]
      simp only [oadd, Option.some.injEq]
      ring
    · rw [getD_set_self _ _ _ (by simpa using hjlen),
        getD_set_ne _ _ _ _ hij, hqj]
      simp only [oadd, osub, Option.some.injEq]
      ring
  · intro params bondArr n k cs0
    refine ⟨peoeIters_eq_peoeItersAt params bondArr n k cs0, ?_⟩
    have h1 : (1 : ℚ) = (2 : ℚ)⁻¹ ^ 0 := by norm_num
    rw [h1]
    exact peoeIters_eq_peoeItersAt params bondArr n 0 cs0

theorem bond_transfer_rule_witness :
    (((processBond 1 [some 1, some 2] [some 3, some 4] [some 0, some 0] (0, 1, 1)).getD 0 none =
        some (0 + 1 * ((2 : ℚ) - 1) / (if (2 : ℚ) > 1 then 3 else 4)) ∧
      (processBond 1 [some 1, some 2] [some 3, some 4] [some 0, some 0] (0, 1, 1)).getD 1 none =
        some (0 - 1 * ((2 : ℚ) - 1) / (if (2 : ℚ) > 1 then 3 else 4))) ∧
    (∀ (params : List (Option (ℚ × ℚ × ℚ))) (bondArr : List (ℕ × ℕ × ℕ))
        (n k : ℕ) (cs0 : List (Option ℚ)),
      peoeIters params bondArr n ((2 : ℚ)⁻¹ ^ k) cs0 = peoeItersAt params bondArr k n cs0 ∧
      peoeIters params bondArr n 1 cs0 = peoeItersAt params bondArr 0 n cs0)) :=
  bond_transfer_rule 1 [some 1, some 2] [some 3, some 4] [some 0, some 0]
    0 1 1 1 2 3 4 0 0 (by decide) (by decide) (by decide)
    rfl rfl rfl rfl rfl rfl

/-- C4: for a bond `(i, j)`: when both endpoint electronegativities are
NaN, both charges are set to NaN; when exactly one is NaN, only that
atom's charge is set to NaN and the other endpoint's charge is left
unmodified by this bond; and the per-bond operation is total — it
always returns a buffer of the same length, NaN being the only failure
signal. -/
theorem nan_poisoning_per_bond (damping : ℚ) (en pos cs : List (Option ℚ))
    (i j t : ℕ) (hij : i ≠ j) :
    (en.getD i none = none → en.getD j none = none →
      processBond damping en pos cs (i, j, t) = (cs.set i none).set j none) ∧
    (∀ enj, en.getD i none = none → en.getD j none = some enj →
      processBond damping en pos cs (i, j, t) = cs.set i none ∧
      (processBond damping en pos cs (i, j, t)).getD j none = cs.getD j none) ∧
    (∀ eni, en.getD i none = some eni → en.getD j none = none →
      processBond damping en pos cs (i, j, t) = cs.set j none ∧
      (processBond damping en pos cs (i, j, t)).getD i none = cs.getD i none) ∧
    (processBond damping en pos cs (i, j, t)).length = cs.length := by
  refine ⟨?_, ?_, ?_, processBond_length damping en pos cs (i, j, t)⟩
  · intro hA hB
    exact processBond_poison_both damping en pos cs i j t hA hB
  · intro enj hA hB
    refine ⟨processBond_poison_left damping en pos cs i j t enj hA hB, ?_⟩
    rw [processBond_poison_left damping en pos cs i j t enj hA hB,
      getD_set_ne _ _ _ _ hij]
  · intro eni hA hB
    refine ⟨processBond_poison_right damping en pos cs i j t eni hA hB, ?_⟩
    rw [processBond_poison_right damping en pos cs i j t eni hA hB,
      getD_set_ne _ _ _ _ (Ne.symm hij)]

theorem nan_poisoning_per_bond_witness :
    ((([none, none] : List (Option ℚ)).getD 0 none = none →
      ([none, none] : List (Option ℚ)).getD 1 none = none →
      processBond 1 [none, none] [some 3, some 4] [some 0, some 0] (0, 1, 1) =
        (([some 0, some 0] : List (Option ℚ)).set 0 none).set 1 none) ∧
    (∀ enj, ([none, none] : List (Option ℚ)).getD 0 none = none →
      ([none, none] : List (Option ℚ)).getD 1 none = some enj →
      processBond 1 [none, none] [some 3, some 4] [some 0, some 0] (0, 1, 1) =
        ([some 0, some 0] : List (Option ℚ)).set 0 none ∧
      (processBond 1 [none, none] [some 3, some 4] [some 0, some 0] (0, 1, 1)).getD 1 none =
        ([some 0, some 0] : List (Option ℚ)).getD 1 none) ∧
    (∀ eni, ([none, none] : List (Option ℚ)).getD 0 none = some eni →
      ([none, none] : List (Option ℚ)).getD 1 none = none →
      processBond 1 [none, none] [some 3, some 4] [some 0, some 0] (0, 1, 1) =
        ([some 0, some 0] : List (Option ℚ)).set 1 none ∧
      (processBond 1 [none, none] [some 3, some 4] [some 0, some 0] (0, 1, 1)).getD 0 none =
        ([some 0, some 0] : List (Option ℚ)).getD 0 none) ∧
    (processBond 1 [none, none] [some 3, some 4] [some 0, some 0] (0, 1, 1)).length =
      ([some 0, some 0] : List (Option ℚ)).length) :=
  nan_poisoning_per_bond 1 [none, none] [some 3, some 4] [some 0, some 0] 0 1 1 (by decide)

/-- C6: an atom whose computed `ENplus = a + b + c` equals the literal
hydrogen value `12.85` gets the fixed constant `20.02` substituted as
its `ENplus` (in particular the hydrogen table entry does), the
substitution happens in the `pos_en_values` array recomputed every
iteration, and the substituted value is what enters as divisor in the
charge transfer when the atom is the electron donor. -/
theorem hydrogen_pos_en_substitution :
    (∀ a b c : ℚ, a + b + c = 12.85 → posEnValue (some (a, b, c)) = some 20.02) ∧
    posEnValue (EN_PARAMETERS "H" 1) = some 20.02 ∧
    (∀ (params : List (Option (ℚ × ℚ × ℚ))) (i : ℕ) (a b c : ℚ),
      params.getD i none = some (a, b, c) → a + b + c = 12.85 →
      (params.map posEnValue).getD i none = some 20.02) ∧
    (∀ (damping : ℚ) (en pos cs : List (Option ℚ)) (i j t : ℕ) (eni enj qi : ℚ),
      i ≠ j → en.getD i none = some eni → en.getD j none = some enj →
      eni < enj → pos.getD i none = some 20.02 → cs.getD i none = some qi →
      i < cs.length →
      (processBond damping en pos cs (i, j, t)).getD i none =
        some (qi + (enj - eni) / 20.02 * damping)) := by
  refine ⟨?_, ?_, ?_, ?_⟩
  · intro a b c h
    rw [posEnValue, if_pos h]
  · with_unfolding_all rfl
  · intro params i a b c hp hsum
    have hpe : params[i]? = some (some (a, b, c)) := by
      rw [← hp]
      exact getD_ne_none_getElem params i (by rw [hp]; exact Option.some_ne_none _)
    rw [List.getD_eq_getElem?_getD, List.getElem?_map, hpe]
    simp only [Option.map_some', Option.getD_some]
    rw [posEnValue, if_pos hsum]
  · intro damping en pos cs i j t eni enj qi hij heni henj hlt hdi hqi hilen
    rw [processBond_eq_transfer damping en pos cs i j t eni enj heni henj,
      if_pos hlt, hdi]
    simp only [omul, odiv, osub, hqi]
    rw [getD_set_ne _ _ _ _ (Ne.symm hij), getD_set_self _ _ _ hilen]
    simp [oadd]

theorem hydrogen_pos_en_substitution_witness :
    posEnValue (some (7.17, 6.24, -0.56)) = some 20.02 ∧
    ([some ((7.17 : ℚ), (6.24 : ℚ), (-0.56 : ℚ))].map posEnValue).getD 0 none = some 20.02 ∧
    (processBond 0.5 [some 7.17, some 14.66] [some 20.02, some 30.82]
        [some 0, some 0] (0, 1, 1)).getD 0 none =
      some (0 + ((14.66 : ℚ) - 7.17) / 20.02 * 0.5) :=
  ⟨hydrogen_pos_en_substitution.1 7.17 6.24 (-0.56) (by norm_num),
   hydrogen_pos_en_substitution.2.2.1 [some (7.17, 6.24, -0.56)] 0 7.17 6.24 (-0.56)
     rfl (by norm_num),
   hydrogen_pos_en_substitution.2.2.2 0.5 [some 7.17, some 14.66]
     [some 20.02, some 30.82] [some 0, some 0] 0 1 1 7.17 14.66 0
     (by decide) rfl rfl (by norm_num) rfl rfl (by decide)⟩


/-- C2: for the fluoromethane topology (atoms `C1, F1, H1, H2, H3`,
carbon bonded to the fluorine and the three hydrogens, all initial
charges `0.0`), the charges returned by `partial_charges` are within
`1e-4` of `[0.1147, -0.1754, 0.0202, 0.0202, 0.0202]` after 1
iteration and within `1e-4` of
`[0.0792, -0.2526, 0.0578, 0.0578, 0.0578]` after 6 iterations. -/
theorem fluoromethane_reference :
    (within ((resultCharges (partial_charges fluoromethane 1 none)).getD 0 none)
        0.1147 0.0001 = true ∧
      within ((resultCharges (partial_charges fluoromethane 1 none)).getD 1 none)
        (-0.1754) 0.0001 = true ∧
      within ((resultCharges (partial_charges fluoromethane 1 none)).getD 2 none)
        0.0202 0.0001 = true ∧
      within ((resultCharges (partial_charges fluoromethane 1 none)).getD 3 none)
        0.0202 0.0001 = true ∧
      within ((resultCharges (partial_charges fluoromethane 1 none)).getD 4 none)
        0.0202 0.0001 = true) ∧
    (within ((resultCharges (partial_charges fluoromethane 6 none)).getD 0 none)
        0.0792 0.0001 = true ∧
      within ((resultCharges (partial_charges fluoromethane 6 none)).getD 1 none)
        (-0.2526) 0.0001 = true ∧
      within ((resultCharges (partial_charges fluoromethane 6 none)).getD 2 none)
        0.0578 0.0001 = true ∧
      within ((resultCharges (partial_charges fluoromethane 6 none)).getD 3 none)
        0.0578 0.0001 = true ∧
      within ((resultCharges (partial_charges fluoromethane 6 none)).getD 4 none)
        0.0578 0.0001 = true) := by
  refine ⟨⟨?_, ?_, ?_, ?_, ?_⟩, ?_, ?_, ?_, ?_, ?_⟩ <;> with_unfolding_all rfl

/-- C3: for an input whose atoms all have a parameter-table entry for
their `(element, valence)` pair (valence being the number of bonded
neighbors), and for every iteration count, the sum of the returned
charges equals — exactly, in the rational model — the sum of the
initial charges: each bond transfer adds `delta` to one endpoint and
subtracts the same `delta` from the other. -/
theorem global_charge_conservation (atom_array : AtomArrayModel)
    (bondArr : List (ℕ × ℕ × ℕ)) (iteration_step_num : ℕ) (charges : Option (List ℚ))
    (hb : atom_array.bonds = some bondArr)
    (hrange : ∀ b ∈ bondArr, b.1 < atom_array.element.length ∧
      b.2.1 < atom_array.element.length)
    (hlen : (resolveInitialCharges atom_array charges).1.length =
      atom_array.element.length)
    (hparam : ∀ i, i < atom_array.element.length →
      EN_PARAMETERS (atom_array.element.getD i "")
        ((bondedAtoms bondArr i).length) ≠ none) :
    sumD (resultCharges (partial_charges atom_array iteration_step_num charges)) =
      ((resolveInitialCharges atom_array charges).1).sum := by
  rw [partial_charges_eq atom_array bondArr iteration_step_num charges hb]
  simp only [resultCharges]
  have hparams2 : ∀ k, k < atom_array.element.length →
      (get_parameters atom_array.element
        (amountOfBindingPartners atom_array bondArr)).1.getD k none ≠ none := by
    intro k hk
    rw [get_parameters_fst_getD _ _ k hk
        (by rw [amountOfBindingPartners_length]; exact hk),
      amountOfBindingPartners_getD _ _ k hk]
    exact hparam k hk
  have hcons := peoeIters_conserves _ bondArr atom_array.element.length hrange hparams2
    iteration_step_num 1 ((resolveInitialCharges atom_array charges).1.map some)
    (by rw [List.length_map]; exact hlen) (allFinite_map_some _)
  rw [hcons.2.2, sumD_map_some]

theorem global_charge_conservation_witness :
    sumD (resultCharges (partial_charges fluoromethane 2 none)) =
      ((resolveInitialCharges fluoromethane none).1).sum :=
  global_charge_conservation fluoromethane [(0, 1, 1), (0, 2, 1), (0, 3, 1), (0, 4, 1)]
    2 none rfl (by decide) (by decide) (by decide)

/-- C5: an atom whose `(element, valence)` pair is present in the
parameter table keeps a non-NaN charge after every iteration (any
iteration count and damping factor) and in the returned result:
poisoning never reaches a parametrized atom. -/
theorem parametrized_atoms_stay_finite (atom_array : AtomArrayModel)
    (bondArr : List (ℕ × ℕ × ℕ)) (iteration_step_num : ℕ) (charges : Option (List ℚ))
    (i : ℕ) (hb : atom_array.bonds = some bondArr)
    (hi : i < atom_array.element.length)
    (hlen : (resolveInitialCharges atom_array charges).1.length =
      atom_array.element.length)
    (hparam : EN_PARAMETERS (atom_array.element.getD i "")
      ((bondedAtoms bondArr i).length) ≠ none) :
    (∀ (m : ℕ) (d : ℚ),
      (peoeIters (get_parameters atom_array.element
          (amountOfBindingPartners atom_array bondArr)).1 bondArr m d
        ((resolveInitialCharges atom_array charges).1.map some)).getD i none ≠ none) ∧
    (resultCharges (partial_charges atom_array iteration_step_num charges)).getD i
      none ≠ none := by
  have hp : (get_parameters atom_array.element
      (amountOfBindingPartners atom_array bondArr)).1.getD i none ≠ none := by
    rw [get_parameters_fst_getD _ _ i hi
        (by rw [amountOfBindingPartners_length]; exact hi),
      amountOfBindingPartners_getD _ _ i hi]
    exact hparam
  have hc : ((resolveInitialCharges atom_array charges).1.map some).getD i none ≠
      none := by
    rw [map_some_getD _ i (by rw [hlen]; exact hi)]
    exact Option.some_ne_none _
  refine ⟨fun m d => peoeIters_finite_at _ bondArr i hp m d _ hc, ?_⟩
  rw [partial_charges_eq atom_array bondArr iteration_step_num charges hb]
  simp only [resultCharges]
  exact peoeIters_finite_at _ bondArr i hp iteration_step_num 1 _ hc

theorem parametrized_atoms_stay_finite_witness :
    (∀ (m : ℕ) (d : ℚ),
      (peoeIters (get_parameters fluoromethane.element
          (amountOfBindingPartners fluoromethane [(0, 1, 1), (0, 2, 1), (0, 3, 1), (0, 4, 1)])).1
        [(0, 1, 1), (0, 2, 1), (0, 3, 1), (0, 4, 1)] m d
        ((resolveInitialCharges fluoromethane none).1.map some)).getD 0 none ≠ none) ∧
    (resultCharges (partial_charges fluoromethane 6 none)).getD 0 none ≠ none :=
  parametrized_atoms_stay_finite fluoromethane [(0, 1, 1), (0, 2, 1), (0, 3, 1), (0, 4, 1)]
    6 none 0 rfl (by decide) (by decide) (by decide)

/-- C9: an atom that is an endpoint of no bond keeps its initial charge
(caller-supplied, annotated, or defaulted) unchanged in the result, for
every iteration count: only bond endpoints are ever written. -/
theorem no_bonds_invariance (atom_array : AtomArrayModel)
    (bondArr : List (ℕ × ℕ × ℕ)) (iteration_step_num : ℕ) (charges : Option (List ℚ))
    (i : ℕ) (hb : atom_array.bonds = some bondArr)
    (hiso : ∀ b ∈ bondArr, b.1 ≠ i ∧ b.2.1 ≠ i) :
    (resultCharges (partial_charges atom_array iteration_step_num charges)).getD i none =
      ((resolveInitialCharges atom_array charges).1.map some).getD i none := by
  rw [partial_charges_eq atom_array bondArr iteration_step_num charges hb]
  simp only [resultCharges]
  exact peoeIters_untouched _ bondArr i hiso iteration_step_num 1 _

theorem no_bonds_invariance_witness :
    (resultCharges (partial_charges h2WithHelium 6 none)).getD 2 none =
      ((resolveInitialCharges h2WithHelium none).1.map some).getD 2 none :=
  no_bonds_invariance h2WithHelium [(0, 1, 1)] 6 none 2 rfl (by decide)


/-- C10: the parameter table has no valence-0 entry for any element, so
an atom with zero bonded neighbors is always unparametrized: its
element symbol appears in the missing-parameters warning on every call,
even though its returned charge is finite and unchanged (it is never
poisoned, having no bonds). -/
theorem zero_valence_unparametrized (atom_array : AtomArrayModel)
    (bondArr : List (ℕ × ℕ × ℕ)) (iteration_step_num : ℕ) (charges : Option (List ℚ))
    (i : ℕ) (hb : atom_array.bonds = some bondArr)
    (hi : i < atom_array.element.length)
    (hnb : bondedAtoms bondArr i = [])
    (hlen : (resolveInitialCharges atom_array charges).1.length =
      atom_array.element.length) :
    (∀ element, EN_PARAMETERS element 0 = none) ∧
    (∃ elems, PCWarning.unparametrizedElements elems ∈
        resultWarnings (partial_charges atom_array iteration_step_num charges) ∧
      atom_array.element.getD i "" ∈ elems) ∧
    (resultCharges (partial_charges atom_array iteration_step_num charges)).getD i
        none = some ((resolveInitialCharges atom_array charges).1.getD i 0) := by
  have hv : i < (amountOfBindingPartners atom_array bondArr).length := by
    rw [amountOfBindingPartners_length]
    exact hi
  have hmiss : EN_PARAMETERS (atom_array.element.getD i "")
      ((amountOfBindingPartners atom_array bondArr).getD i 0) = none := by
    rw [amountOfBindingPartners_getD _ _ i hi, hnb]
    exact EN_PARAMETERS_valence_zero _
  obtain ⟨lst, hne, hmem, hsnd⟩ :=
    get_parameters_snd_of_missing atom_array.element
      (amountOfBindingPartners atom_array bondArr) i hi hv hmiss
  refine ⟨EN_PARAMETERS_valence_zero, ⟨npUnique lst, ?_, ?_⟩, ?_⟩
  · rw [partial_charges_eq atom_array bondArr iteration_step_num charges hb]
    simp only [resultWarnings]
    rw [hsnd]
    exact List.mem_append_right _ (List.mem_singleton.mpr rfl)
  · exact (npUnique_mem lst _).mpr hmem
  · rw [partial_charges_eq atom_array bondArr iteration_step_num charges hb]
    simp only [resultCharges]
    rw [peoeIters_untouched _ bondArr i ((bondedAtoms_nil_iff bondArr i).mp hnb)
      iteration_step_num 1 _]
    exact map_some_getD _ i (by rw [hlen]; exact hi)

theorem zero_valence_unparametrized_witness :
    (∀ element, EN_PARAMETERS element 0 = none) ∧
    (∃ elems, PCWarning.unparametrizedElements elems ∈
        resultWarnings (partial_charges h2WithHelium 6 none) ∧
      h2WithHelium.element.getD 2 "" ∈ elems) ∧
    (resultCharges (partial_charges h2WithHelium 6 none)).getD 2 none =
      some ((resolveInitialCharges h2WithHelium none).1.getD 2 0) :=
  zero_valence_unparametrized h2WithHelium [(0, 1, 1)] 6 none 2 rfl (by decide)
    (by decide) (by decide)

/-- C8 counterexample: in `loneCarbon` the single atom (element `C`,
valence 0) has no parameter-table entry, and the missing-parameters
diagnostic is emitted — yet its returned charge is `some 0`, a finite
value, not NaN: the claim's final conjunct fails for an unparametrized
atom with no bonds. -/
theorem unparametrized_lone_atom_keeps_finite_charge :
    EN_PARAMETERS (loneCarbon.element.getD 0 "") ((bondedAtoms [] 0).length) = none ∧
    isUnparametrizedWarning
      ((resultWarnings (partial_charges loneCarbon 6 none)).getD 0
        PCWarning.chargesDefaulted) = true ∧
    (resultCharges (partial_charges loneCarbon 6 none)).getD 0 none = some 0 := by
  refine ⟨by decide, ?_, ?_⟩ <;> with_unfolding_all rfl

/-- C8 (amended): for an input containing at least one atom whose
`(element, valence)` pair is absent from the parameter table, exactly
one missing-parameters diagnostic is emitted per call — the warning
list filtered to missing-parameters diagnostics is a singleton carrying
an element list `elems` — and that diagnostic lists each distinct
affected element symbol exactly once: the element symbol of every
unparametrized atom is a member of `elems`, and every member of
`elems` occurs in it exactly once.  Moreover every unparametrized atom
that occurs as the endpoint of at least one bond has charge NaN in the
result, provided at least one iteration runs (an unparametrized atom
with no bonds keeps its finite initial charge). -/
theorem unparametrized_diagnostics (atom_array : AtomArrayModel)
    (bondArr : List (ℕ × ℕ × ℕ)) (iteration_step_num : ℕ) (charges : Option (List ℚ))
    (hb : atom_array.bonds = some bondArr)
    (hmiss : ∃ i, i < atom_array.element.length ∧
      EN_PARAMETERS (atom_array.element.getD i "")
        ((bondedAtoms bondArr i).length) = none) :
    ∃ elems,
      (resultWarnings (partial_charges atom_array iteration_step_num charges)).filter
          isUnparametrizedWarning = [PCWarning.unparametrizedElements elems] ∧
      (∀ i, i < atom_array.element.length →
        EN_PARAMETERS (atom_array.element.getD i "")
          ((bondedAtoms bondArr i).length) = none →
        atom_array.element.getD i "" ∈ elems) ∧
      (∀ el ∈ elems, elems.count el = 1) ∧
      (∀ i, i < atom_array.element.length →
        EN_PARAMETERS (atom_array.element.getD i "")
          ((bondedAtoms bondArr i).length) = none →
        (∃ b ∈ bondArr, b.1 = i ∨ b.2.1 = i) → 1 ≤ iteration_step_num →
        (resultCharges (partial_charges atom_array iteration_step_num charges)).getD i
          none = none) := by
  obtain ⟨i0, hi0, hm0⟩ := hmiss
  have hv0 : i0 < (amountOfBindingPartners atom_array bondArr).length := by
    rw [amountOfBindingPartners_length]
    exact hi0
  have hm0v : EN_PARAMETERS (atom_array.element.getD i0 "")
      ((amountOfBindingPartners atom_array bondArr).getD i0 0) = none := by
    rw [amountOfBindingPartners_getD _ _ i0 hi0]
    exact hm0
  have hsnd := get_parameters_snd_eq atom_array.element
    (amountOfBindingPartners atom_array bondArr) i0 hi0 hv0 hm0v
  refine ⟨npUnique ((List.zip atom_array.element
    (amountOfBindingPartners atom_array bondArr)).filterMap
      (fun p => if EN_PARAMETERS p.1 p.2 = none then some p.1 else none)),
    ?_, ?_, ?_, ?_⟩
  · rw [partial_charges_eq atom_array bondArr iteration_step_num charges hb]
    simp only [resultWarnings]
    rw [hsnd, List.filter_append]
    rcases resolveInitialCharges_snd atom_array charges with h0 | h0 <;>
      rw [h0] <;> rfl
  · intro i hi hm
    have hv : i < (amountOfBindingPartners atom_array bondArr).length := by
      rw [amountOfBindingPartners_length]
      exact hi
    have hmv : EN_PARAMETERS (atom_array.element.getD i "")
        ((amountOfBindingPartners atom_array bondArr).getD i 0) = none := by
      rw [amountOfBindingPartners_getD _ _ i hi]
      exact hm
    exact (npUnique_mem _ _).mpr
      (mem_missing_of_lookup_none atom_array.element
        (amountOfBindingPartners atom_array bondArr) i hi hv hmv)
  · intro el hel
    exact npUnique_count _ el ((npUnique_mem _ el).mp hel)
  · intro i hi hm hbond hstep
    have hp : (get_parameters atom_array.element
        (amountOfBindingPartners atom_array bondArr)).1.getD i none = none := by
      rw [get_parameters_fst_getD _ _ i hi
          (by rw [amountOfBindingPartners_length]; exact hi),
        amountOfBindingPartners_getD _ _ i hi]
      exact hm
    rw [partial_charges_eq atom_array bondArr iteration_step_num charges hb]
    simp only [resultCharges]
    exact peoeIters_trigger _ bondArr i hp hbond iteration_step_num hstep 1 _

theorem unparametrized_diagnostics_witness :
    ∃ elems,
      (resultWarnings (partial_charges heliumHydride 1 none)).filter
          isUnparametrizedWarning = [PCWarning.unparametrizedElements elems] ∧
      (∀ i, i < heliumHydride.element.length →
        EN_PARAMETERS (heliumHydride.element.getD i "")
          ((bondedAtoms [(0, 1, 1)] i).length) = none →
        heliumHydride.element.getD i "" ∈ elems) ∧
      (∀ el ∈ elems, elems.count el = 1) ∧
      (∀ i, i < heliumHydride.element.length →
        EN_PARAMETERS (heliumHydride.element.getD i "")
          ((bondedAtoms [(0, 1, 1)] i).length) = none →
        (∃ b ∈ [((0 : ℕ), (1 : ℕ), (1 : ℕ))], b.1 = i ∨ b.2.1 = i) → 1 ≤ 1 →
        (resultCharges (partial_charges heliumHydride 1 none)).getD i none = none) :=
  unparametrized_diagnostics heliumHydride [(0, 1, 1)] 1 none rfl
    ⟨0, by decide, by decide⟩

end Peoe
